import Mathlib

/-!
# Verification of the Viralytics Aggregator/Scorer

Shallow embedding of `src/app/api/analyze/route.ts` (the `POST` handler and its
helpers `safeRate` and `topN`).  JavaScript numbers are modelled as rationals
(`ℚ`); the JS `Map` objects, whose iteration order is insertion order, are
modelled as insertion-ordered association lists; the ECMAScript stable
`Array.prototype.sort` is modelled by the stable `List.insertionSort`;
`Number.prototype.toFixed(k)` is modelled by rounding half away from zero
(for the nonnegative values occurring here: half up) at `k` decimal digits.
-/

namespace Viralytics

/-- A JavaScript number value of the `hour` field: either a finite number or
`NaN` (`typeof` both is `"number"`).  `NaN` is falsy in JS, so `r.hour || 0`
turns it into `0`. -/
inductive JNum where
  | num (q : ℚ)
  | nan
deriving DecidableEq

/-- A row of the request body, per the declared `MetricRow` shape.  Fields the
route reads are kept; `views` is `none` when the field is absent or not of
JS type number (`typeof r.views === "number"` fails), `hour` is `none` when
absent (`undefined`/`null`, both falsy).  String/`string[]` fields model an
absent value by `""` / `[]`, which the source coalesces the same way
(`r.contentType || "unknown"`, `r.hashtags || []`, `(h || "")`). -/
structure RawRow where
  hour : Option JNum := none
  contentType : String := ""
  hashtags : List String := []
  views : Option ℚ := none
  likes : ℚ := 0
  comments : ℚ := 0
  shares : ℚ := 0
deriving DecidableEq

/-- A row of the working set: `views` is known to be a number. -/
structure Row where
  hour : Option JNum
  contentType : String
  hashtags : List String
  views : ℚ
  likes : ℚ
  comments : ℚ
  shares : ℚ
deriving DecidableEq

/-- Repackage a raw row whose `views` field held the number `v`. -/
def toRow (r : RawRow) (v : ℚ) : Row :=
  ⟨r.hour, r.contentType, r.hashtags, v, r.likes, r.comments, r.shares⟩

/-- `(body?.rows || []).filter((r) => r && typeof r.views === "number")`:
null/undefined entries and rows without a numeric `views` are dropped. -/
def workingSet (rows : List (Option RawRow)) : List Row :=
  rows.filterMap fun o => o.bind fun r => r.views.map (toRow r)

/-- `r.hour || 0` : JS `||` yields `0` for the falsy hour values
(`undefined`, `null`, `NaN`, `0`). -/
def jnumOrZero : Option JNum → ℚ
  | some (.num q) => q
  | _ => 0

/-- `Math.max(0, Math.min(23, Number(r.hour || 0)))`. -/
def hourKey (r : Row) : ℚ := max 0 (min 23 (jnumOrZero r.hour))

/-- `r.contentType || "unknown"` : the empty string is falsy. -/
def effType (r : Row) : String :=
  if r.contentType = "" then "unknown" else r.contentType

/-- `Number((num / den).toFixed(k))`, i.e. rounding at `k` decimal digits;
`toFixed` picks the integer `m` minimising `|m / 10^k - x|`, the larger `m`
on ties, which is `⌊x·10^k + 1/2⌋`. -/
def roundTo (k : ℕ) (q : ℚ) : ℚ := ((q * 10 ^ k + 1 / 2).floor : ℚ) / 10 ^ k

/-- `function safeRate(num, den) { return den > 0 ? Number((num / den).toFixed(4)) : 0; }` -/
def safeRate (num den : ℚ) : ℚ := if 0 < den then roundTo 4 (num / den) else 0

/-- `m.set(k, f(m.get(k) ?? d))` on a JS `Map` in insertion order: an existing
key keeps its position, a new key is appended at the end. -/
def upsert {κ σ : Type} [DecidableEq κ] (k : κ) (f : σ → σ) (d : σ) :
    List (κ × σ) → List (κ × σ)
  | [] => [(k, f d)]
  | (k', v) :: t => if k' = k then (k', f v) :: t else (k', v) :: upsert k f d t

/-- Lookup in an association list (first match). -/
def alookup {κ σ : Type} [DecidableEq κ] (k : κ) : List (κ × σ) → Option σ
  | [] => none
  | (k', v) :: t => if k' = k then some v else alookup k t

/-- The keys of an association list, in order. -/
def keysOf {κ σ : Type} (m : List (κ × σ)) : List κ := m.map Prod.fst

/-- Generic single-pass keyed accumulation, one `upsert` per element: the
shape of all three maps built in the aggregation loop. -/
def accumBy {α κ σ : Type} [DecidableEq κ] (keyfn : α → κ) (updfn : α → σ → σ)
    (d : σ) (ws : List α) : List (κ × σ) :=
  ws.foldl (fun m r => upsert (keyfn r) (updfn r) d m) []

/-- Accumulator of the `byHour` map: `{ views, posts }`. -/
structure HourAgg where
  views : ℚ
  posts : ℚ
deriving DecidableEq

/-- `hAgg.views += r.views; hAgg.posts += 1`. -/
def hourUpd (r : Row) (a : HourAgg) : HourAgg := ⟨a.views + r.views, a.posts + 1⟩

/-- The `byHour` map after the aggregation loop. -/
def byHour (ws : List Row) : List (ℚ × HourAgg) :=
  accumBy hourKey hourUpd ⟨0, 0⟩ ws

/-- Accumulator of the `byType` map: `{ views, posts, likes, comments, shares }`. -/
structure TypeAgg where
  views : ℚ
  posts : ℚ
  likes : ℚ
  comments : ℚ
  shares : ℚ
deriving DecidableEq

/-- The per-row update of a `byType` accumulator. -/
def typeUpd (r : Row) (a : TypeAgg) : TypeAgg :=
  ⟨a.views + r.views, a.posts + 1, a.likes + r.likes,
    a.comments + r.comments, a.shares + r.shares⟩

/-- The `byType` map after the aggregation loop. -/
def byType (ws : List Row) : List (String × TypeAgg) :=
  accumBy effType typeUpd ⟨0, 0, 0, 0, 0⟩ ws

/-- Is the character removed by `replace(/[#\s]+/g, "")`?  (`\s` is modelled on
the ASCII whitespace characters covered by `Char.isWhitespace`.) -/
def isStripChar (c : Char) : Bool := c == '#' || c.isWhitespace

/-- `(h || "").replace(/[#\s]+/g, "").toLowerCase()` : remove every `#` and
whitespace character, then lowercase (ASCII case mapping). -/
def normalizeTag (s : String) : String :=
  String.mk ((s.data.filter fun c => !isStripChar c).map Char.toLower)

/-- Accumulator of the `hashtagStats` map: `{ views, uses }`. -/
structure TagAgg where
  views : ℚ
  uses : ℚ
deriving DecidableEq

/-- One iteration of the inner hashtag loop: normalize, skip empty keys,
otherwise `stat.views += r.views; stat.uses += 1`. -/
def tagStep (v : ℚ) (m : List (String × TagAgg)) (h : String) :
    List (String × TagAgg) :=
  let key := normalizeTag h
  if key = "" then m
  else upsert key (fun a => ⟨a.views + v, a.uses + 1⟩) ⟨0, 0⟩ m

/-- The inner `for (const h of r.hashtags || [])` loop for one row. -/
def rowTagStep (m : List (String × TagAgg)) (r : Row) : List (String × TagAgg) :=
  r.hashtags.foldl (tagStep r.views) m

/-- The `hashtagStats` map after the aggregation loop. -/
def byTag (ws : List Row) : List (String × TagAgg) :=
  ws.foldl rowTagStep []

/-- `entries.sort((a, b) => keyOf b - keyOf a)` : the ECMAScript sort is
stable, and a stable sort under the total preorder "greater-or-equal key"
is exactly `insertionSort` with relation `keyOf b ≤ keyOf a`. -/
def sortByDesc {α : Type} (key : α → ℚ) (l : List α) : List α :=
  l.insertionSort fun a b => key b ≤ key a

/-- `function topN(entries, n) { return entries.sort((a, b) => b[1] - a[1]).slice(0, n).map(([k]) => k); }` -/
def topN {α : Type} (entries : List (α × ℚ)) (n : ℕ) : List α :=
  ((sortByDesc Prod.snd entries).take n).map Prod.fst

/-- The per-hour rate entries fed to `topN` for `bestHours`. -/
def hourRateEntries (ws : List Row) : List (ℚ × ℚ) :=
  (byHour ws).map fun p => (p.1, safeRate p.2.views p.2.posts)

/-- `const bestHours = topN(..., 3)`. -/
def bestHours (ws : List Row) : List ℚ := topN (hourRateEntries ws) 3

/-- One element of the `typeScores` array. -/
structure ScoreEntry where
  type : String
  score : ℚ
  viewPerPost : ℚ
  engagementRate : ℚ
deriving DecidableEq

/-- The body of the `typeScores` map: engagement weighting, rate with the
`v.views || v.posts` fallback (a number is falsy exactly when it is `0`),
view-per-post, and the blended score rounded at 6 digits. -/
def scoreOfAgg (t : String) (v : TypeAgg) : ScoreEntry :=
  let engagement := v.likes + v.comments * 2 + v.shares * 3
  let engagementRate := safeRate engagement (if v.views = 0 then v.posts else v.views)
  let viewPerPost := safeRate v.views v.posts
  let score := roundTo 6 (viewPerPost * (7 / 10) + engagementRate * (3 / 10))
  ⟨t, score, viewPerPost, engagementRate⟩

/-- `typeScores` : map the score formula over `byType` and sort by
`(a, b) => b.score - a.score`. -/
def typeScores (ws : List Row) : List ScoreEntry :=
  sortByDesc ScoreEntry.score ((byType ws).map fun p => scoreOfAgg p.1 p.2)

/-- The per-tag rate entries fed to `topN` for `topHashtags`. -/
def tagRateEntries (ws : List Row) : List (String × ℚ) :=
  (byTag ws).map fun p => (p.1, safeRate p.2.views p.2.uses)

/-- `const topHashtags = topN(..., 15)`. -/
def topHashtags (ws : List Row) : List String := topN (tagRateEntries ws) 15

/-- `hashtagLeaders: Array.from(hashtagStats.entries()).sort((a,b)=>b[1].views-a[1].views).slice(0, 20)`. -/
def hashtagLeaders (ws : List Row) : List (String × TagAgg) :=
  (sortByDesc (fun p => p.2.views) (byTag ws)).take 20

/-- Decimal string of a JS number; exact for the integer values that reach
string output in this route (clamped integer hours and the cadence). -/
def jsNumString (q : ℚ) : String :=
  if q.den = 1 then toString q.num else toString q

/-- `Math.min(14, Math.max(5, Math.round(rows.length * 0.6)))`;
`Math.round x = ⌊x + 1/2⌋`. -/
def plannedCadence (n : ℕ) : ℚ :=
  min 14 (max 5 ((((n : ℚ) * (6 / 10) + 1 / 2).floor : ℤ) : ℚ))

/-- The unconditional final action line. -/
def cadenceLine (n : ℕ) : String :=
  "Publish ~" ++ jsNumString (plannedCadence n) ++
    " posts next 7 days with 70/20/10: top/experimental/brand."

/-- The `actions` array, built by the four conditional pushes and the
unconditional cadence push (`typeScores.slice(-1)[0]` is the last entry). -/
def actions (ws : List Row) : List String :=
  (match (typeScores ws).head? with
    | some e => ["Double down on " ++ e.type ++ " content (top format)."]
    | none => []) ++
  (if bestHours ws = [] then []
    else ["Post at " ++
      String.intercalate ", " ((bestHours ws).map fun h => jsNumString h ++ ":00") ++
      " local time."]) ++
  (if topHashtags ws = [] then []
    else ["Use 1-3 of: " ++
      String.intercalate " " (((topHashtags ws).take 5).map fun h => "#" ++ h) ++ "."]) ++
  (match (typeScores ws).getLast? with
    | some e => ["De-prioritize " ++ e.type ++ " until performance improves."]
    | none => []) ++
  [cadenceLine ws.length]

/-- The diagnostics object of the success response. -/
structure Diagnostics where
  byHour : List (ℚ × HourAgg)
  byType : List (String × TypeAgg)
  typeScores : List ScoreEntry
  hashtagLeaders : List (String × TagAgg)
deriving DecidableEq

/-- The success payload of the route. -/
structure Output where
  bestHours : List ℚ
  topHashtags : List String
  actions : List String
  diagnostics : Diagnostics
deriving DecidableEq

/-- Computation of the full success payload from the working set. -/
def analyzeRows (ws : List Row) : Output :=
  { bestHours := bestHours ws
    topHashtags := topHashtags ws
    actions := actions ws
    diagnostics :=
      { byHour := byHour ws
        byType := byType ws
        typeScores := typeScores ws
        hashtagLeaders := hashtagLeaders ws } }

/-- The parsed request body: `rows` may be absent (`body?.rows || []`). -/
structure AnalyzeBody where
  rows : Option (List (Option RawRow))
deriving DecidableEq

/-- A `NextResponse.json` result: either the success payload or an error
object `{ error: message }` with its HTTP status. -/
inductive ApiResult where
  | ok (out : Output)
  | err (message : String) (status : ℕ)
deriving DecidableEq

/-- The `POST` handler: a failed `req.json()` is caught by the `catch` block
(status 500 with the exception message); an empty working set is rejected
with `{ error: "No data provided" }` and status 400; otherwise the full
payload is returned. -/
def POST (body : Except String AnalyzeBody) : ApiResult :=
  match body with
  | .error e => .err e 500
  | .ok b =>
    let ws := workingSet (b.rows.getD [])
    if ws = [] then .err "No data provided" 400
    else .ok (analyzeRows ws)

/-! ## Specification-side aggregate descriptions

Direct sums over the working set, used to state what each bucket of the
aggregation maps must hold. -/

/-- Total views of the working-set rows falling in hour bucket `h`. -/
def hourViews (ws : List Row) (h : ℚ) : ℚ :=
  (((ws.filter fun r => hourKey r = h).map Row.views)).sum

/-- Post count of the working-set rows falling in hour bucket `h`. -/
def hourPosts (ws : List Row) (h : ℚ) : ℚ :=
  ((ws.filter fun r => hourKey r = h).length : ℚ)

/-- Total views of the working-set rows of effective content type `t`. -/
def typeViews (ws : List Row) (t : String) : ℚ :=
  (((ws.filter fun r => effType r = t).map Row.views)).sum

/-- Post count of the working-set rows of effective content type `t`. -/
def typePosts (ws : List Row) (t : String) : ℚ :=
  ((ws.filter fun r => effType r = t).length : ℚ)

/-- Total likes of the working-set rows of effective content type `t`. -/
def typeLikes (ws : List Row) (t : String) : ℚ :=
  (((ws.filter fun r => effType r = t).map Row.likes)).sum

/-- Total comments of the working-set rows of effective content type `t`. -/
def typeComments (ws : List Row) (t : String) : ℚ :=
  (((ws.filter fun r => effType r = t).map Row.comments)).sum

/-- Total shares of the working-set rows of effective content type `t`. -/
def typeShares (ws : List Row) (t : String) : ℚ :=
  (((ws.filter fun r => effType r = t).map Row.shares)).sum

/-- All `(views, tag)` occurrences of the working set, one per element of a
row's tag list, in processing order. -/
def tagPairs (ws : List Row) : List (ℚ × String) :=
  ws.flatMap fun r => r.hashtags.map fun h => (r.views, h)

/-- The tag occurrences of one row that survive normalization. -/
def validTags (r : Row) : List String :=
  r.hashtags.filter fun h => ¬normalizeTag h = ""

/-- Total views accumulated in hashtag bucket `t` (each occurrence counts). -/
def tagViews (ws : List Row) (t : String) : ℚ :=
  (((tagPairs ws).filter fun p => normalizeTag p.2 = t).map Prod.fst).sum

/-- Usage count accumulated in hashtag bucket `t`. -/
def tagUses (ws : List Row) (t : String) : ℚ :=
  (((tagPairs ws).filter fun p => normalizeTag p.2 = t).length : ℚ)

/-- The update a `(views, tag)` occurrence applies to its hashtag bucket. -/
def tagUpd (p : ℚ × String) (a : TagAgg) : TagAgg := ⟨a.views + p.1, a.uses + 1⟩

/-- The tag occurrences of the working set surviving normalization. -/
def validPairs (ws : List Row) : List (ℚ × String) :=
  (tagPairs ws).filter fun p => ¬normalizeTag p.2 = ""

/-- Sum of a measure of the values of an association list. -/
def sumOf {κ σ : Type} (meas : σ → ℚ) (m : List (κ × σ)) : ℚ :=
  (m.map fun p => meas p.2).sum

/-- The sample rows of the design document, used to instantiate theorems on
concrete inputs. -/
def wsA : List Row :=
  [⟨some (JNum.num 18), "short", ["ai", "productivity"], 12000, 1300, 120, 80⟩,
    ⟨some (JNum.num 12), "short", ["editing"], 6000, 430, 32, 20⟩]

/-- A working set with two hour buckets of equal views-per-post rate. -/
def wsB : List Row :=
  [⟨some (JNum.num 5), "short", [], 100, 0, 0, 0⟩,
    ⟨some (JNum.num 7), "long", [], 100, 0, 0, 0⟩]

/-! ## Association-list lemmas -/

@[simp] theorem keysOf_nil {κ σ : Type} : keysOf ([] : List (κ × σ)) = [] := rfl

@[simp] theorem keysOf_cons {κ σ : Type} (p : κ × σ) (t : List (κ × σ)) :
    keysOf (p :: t) = p.1 :: keysOf t := rfl

@[simp] theorem alookup_nil {κ σ : Type} [DecidableEq κ] (k : κ) :
    alookup k ([] : List (κ × σ)) = none := rfl

theorem alookup_cons {κ σ : Type} [DecidableEq κ] (k k₀ : κ) (v₀ : σ)
    (t : List (κ × σ)) :
    alookup k ((k₀, v₀) :: t) = if k₀ = k then some v₀ else alookup k t := rfl

theorem upsert_nil {κ σ : Type} [DecidableEq κ] (k : κ) (f : σ → σ) (d : σ) :
    upsert k f d [] = [(k, f d)] := rfl

theorem upsert_cons {κ σ : Type} [DecidableEq κ] (k k₀ : κ) (f : σ → σ)
    (d : σ) (v₀ : σ) (t : List (κ × σ)) :
    upsert k f d ((k₀, v₀) :: t) =
      if k₀ = k then (k₀, f v₀) :: t else (k₀, v₀) :: upsert k f d t := rfl

theorem alookup_upsert {κ σ : Type} [DecidableEq κ] (k k' : κ) (f : σ → σ)
    (d : σ) (m : List (κ × σ)) :
    alookup k (upsert k' f d m) =
      if k' = k then some (f ((alookup k m).getD d)) else alookup k m := by
  induction m with
  | nil =>
    by_cases h : k' = k <;> simp [upsert_nil, alookup_cons, h]
  | cons p t ih =>
    obtain ⟨k₀, v₀⟩ := p
    rw [upsert_cons]
    by_cases h0 : k₀ = k'
    · subst h0
      by_cases h1 : k₀ = k <;> simp [alookup_cons, h1]
    · rw [if_neg h0, alookup_cons, alookup_cons]
      by_cases h1 : k₀ = k
      · subst h1
        have h2 : ¬k' = k₀ := fun h => h0 h.symm
        simp [h2]
      · simp [h1, ih]

theorem keysOf_upsert_of_mem {κ σ : Type} [DecidableEq κ] {k : κ} (f : σ → σ)
    (d : σ) {m : List (κ × σ)} (h : k ∈ keysOf m) :
    keysOf (upsert k f d m) = keysOf m := by
  induction m with
  | nil => simp at h
  | cons p t ih =>
    obtain ⟨k₀, v₀⟩ := p
    rw [upsert_cons]
    by_cases h0 : k₀ = k
    · simp [h0]
    · rw [if_neg h0]
      have hk : k ∈ keysOf t := by
        rcases List.mem_cons.1 (by simpa using h) with h1 | h1
        · exact absurd h1.symm h0
        · exact h1
      simp [ih hk]

theorem keysOf_upsert_of_not_mem {κ σ : Type} [DecidableEq κ] {k : κ}
    (f : σ → σ) (d : σ) {m : List (κ × σ)} (h : ¬k ∈ keysOf m) :
    keysOf (upsert k f d m) = keysOf m ++ [k] := by
  induction m with
  | nil => simp [upsert_nil]
  | cons p t ih =>
    obtain ⟨k₀, v₀⟩ := p
    simp only [keysOf_cons, List.mem_cons] at h
    push_neg at h
    have h0 : ¬k₀ = k := fun hk => h.1 hk.symm
    rw [upsert_cons, if_neg h0]
    simp [ih h.2]

theorem mem_keys_upsert {κ σ : Type} [DecidableEq κ] (k k' : κ) (f : σ → σ)
    (d : σ) (m : List (κ × σ)) :
    k ∈ keysOf (upsert k' f d m) ↔ k = k' ∨ k ∈ keysOf m := by
  by_cases hm : k' ∈ keysOf m
  · rw [keysOf_upsert_of_mem f d hm]
    constructor
    · exact Or.inr
    · rintro (rfl | h)
      exacts [hm, h]
  · rw [keysOf_upsert_of_not_mem f d hm]
    simp [List.mem_append, or_comm]

theorem nodup_keys_upsert {κ σ : Type} [DecidableEq κ] (k : κ) (f : σ → σ)
    (d : σ) (m : List (κ × σ)) (h : (keysOf m).Nodup) :
    (keysOf (upsert k f d m)).Nodup := by
  by_cases hm : k ∈ keysOf m
  · rw [keysOf_upsert_of_mem f d hm]; exact h
  · rw [keysOf_upsert_of_not_mem f d hm]
    simpa [List.nodup_append] using ⟨h, hm⟩

theorem alookup_eq_of_mem {κ σ : Type} [DecidableEq κ] {k : κ} {v : σ}
    {m : List (κ × σ)} (hn : (keysOf m).Nodup) (h : (k, v) ∈ m) :
    alookup k m = some v := by
  induction m with
  | nil => simp at h
  | cons p t ih =>
    obtain ⟨k₀, v₀⟩ := p
    simp only [keysOf_cons, List.nodup_cons] at hn
    rcases List.mem_cons.1 h with h1 | h1
    · rw [show k₀ = k by exact (congrArg Prod.fst h1).symm,
        show v₀ = v by exact (congrArg Prod.snd h1).symm, alookup_cons, if_pos rfl]
    · have hk : ¬k₀ = k := by
        intro hk
        subst hk
        exact hn.1 (List.mem_map_of_mem Prod.fst h1)
      rw [alookup_cons, if_neg hk]
      exact ih hn.2 h1

theorem mem_of_alookup {κ σ : Type} [DecidableEq κ] {k : κ} {v : σ}
    {m : List (κ × σ)} (h : alookup k m = some v) : (k, v) ∈ m := by
  induction m with
  | nil => simp at h
  | cons p t ih =>
    obtain ⟨k₀, v₀⟩ := p
    by_cases h0 : k₀ = k
    · subst h0
      rw [alookup_cons, if_pos rfl, Option.some.injEq] at h
      subst h
      exact List.mem_cons_self _ _
    · rw [alookup_cons, if_neg h0] at h
      exact List.mem_cons_of_mem _ (ih h)

/-! ## Generic accumulation lemmas -/

theorem foldl_filter_cond {α β : Type} (p : α → Prop) [DecidablePred p]
    (g : β → α → β) (init : β) (l : List α) :
    l.foldl (fun s r => if p r then g s r else s) init =
      (l.filter fun r => p r).foldl g init := by
  induction l generalizing init with
  | nil => rfl
  | cons r t ih =>
    by_cases h : p r <;> simp [List.filter_cons, h, ih]

theorem foldl_skip_cond {α β : Type} (p : α → Prop) [DecidablePred p]
    (g : β → α → β) (init : β) (l : List α) :
    l.foldl (fun s r => if p r then s else g s r) init =
      (l.filter fun r => ¬p r).foldl g init := by
  induction l generalizing init with
  | nil => rfl
  | cons r t ih =>
    by_cases h : p r <;> simp [List.filter_cons, h, ih]

theorem alookup_foldl_upsert {α κ σ : Type} [DecidableEq κ] (keyfn : α → κ)
    (updfn : α → σ → σ) (d : σ) (k : κ) (ws : List α) (m0 : List (κ × σ)) :
    alookup k (ws.foldl (fun m r => upsert (keyfn r) (updfn r) d m) m0) =
      ws.foldl (fun o r => if keyfn r = k then some (updfn r (o.getD d)) else o)
        (alookup k m0) := by
  induction ws generalizing m0 with
  | nil => rfl
  | cons r t ih =>
    simp only [List.foldl_cons]
    rw [ih, alookup_upsert]

theorem foldl_optstep_some {α σ : Type} (updfn : α → σ → σ) (d : σ)
    (ms : List α) (s : σ) :
    ms.foldl (fun o r => some (updfn r (o.getD d))) (some s) =
      some (ms.foldl (fun s r => updfn r s) s) := by
  induction ms generalizing s with
  | nil => rfl
  | cons r t ih => simp [ih]

theorem alookup_accumBy_of_filter_nil {α κ σ : Type} [DecidableEq κ]
    (keyfn : α → κ) (updfn : α → σ → σ) (d : σ) (k : κ) (ws : List α)
    (hf : (ws.filter fun r => keyfn r = k) = []) :
    alookup k (accumBy keyfn updfn d ws) = none := by
  rw [accumBy, alookup_foldl_upsert, alookup_nil,
    foldl_filter_cond (fun r => keyfn r = k) (fun o r => some (updfn r (o.getD d)))
      none ws, hf]
  rfl

theorem alookup_accumBy_of_filter_cons {α κ σ : Type} [DecidableEq κ]
    (keyfn : α → κ) (updfn : α → σ → σ) (d : σ) (k : κ) (ws : List α)
    (r : α) (ms : List α)
    (hf : (ws.filter fun r => keyfn r = k) = r :: ms) :
    alookup k (accumBy keyfn updfn d ws) =
      some (ms.foldl (fun s r => updfn r s) (updfn r d)) := by
  rw [accumBy, alookup_foldl_upsert, alookup_nil,
    foldl_filter_cond (fun r => keyfn r = k) (fun o r => some (updfn r (o.getD d)))
      none ws, hf]
  simp only [List.foldl_cons, Option.getD_none]
  rw [foldl_optstep_some]

theorem mem_keys_foldl_upsert {α κ σ : Type} [DecidableEq κ] (keyfn : α → κ)
    (updfn : α → σ → σ) (d : σ) (k : κ) (ws : List α) (m0 : List (κ × σ)) :
    k ∈ keysOf (ws.foldl (fun m r => upsert (keyfn r) (updfn r) d m) m0) ↔
      k ∈ keysOf m0 ∨ k ∈ ws.map keyfn := by
  induction ws generalizing m0 with
  | nil => simp
  | cons r t ih =>
    simp only [List.foldl_cons, List.map_cons, List.mem_cons]
    rw [ih, mem_keys_upsert]
    tauto

theorem mem_keys_accumBy {α κ σ : Type} [DecidableEq κ] (keyfn : α → κ)
    (updfn : α → σ → σ) (d : σ) (k : κ) (ws : List α) :
    k ∈ keysOf (accumBy keyfn updfn d ws) ↔ k ∈ ws.map keyfn := by
  rw [accumBy, mem_keys_foldl_upsert]
  simp

theorem nodup_keys_foldl_upsert {α κ σ : Type} [DecidableEq κ] (keyfn : α → κ)
    (updfn : α → σ → σ) (d : σ) (ws : List α) (m0 : List (κ × σ))
    (h : (keysOf m0).Nodup) :
    (keysOf (ws.foldl (fun m r => upsert (keyfn r) (updfn r) d m) m0)).Nodup := by
  induction ws generalizing m0 with
  | nil => exact h
  | cons r t ih =>
    simp only [List.foldl_cons]
    exact ih _ (nodup_keys_upsert _ _ _ _ h)

theorem nodup_keys_accumBy {α κ σ : Type} [DecidableEq κ] (keyfn : α → κ)
    (updfn : α → σ → σ) (d : σ) (ws : List α) :
    (keysOf (accumBy keyfn updfn d ws)).Nodup :=
  nodup_keys_foldl_upsert keyfn updfn d ws [] (by simp)

@[simp] theorem sumOf_nil {κ σ : Type} (meas : σ → ℚ) :
    sumOf meas ([] : List (κ × σ)) = 0 := rfl

@[simp] theorem sumOf_cons {κ σ : Type} (meas : σ → ℚ) (p : κ × σ)
    (t : List (κ × σ)) : sumOf meas (p :: t) = meas p.2 + sumOf meas t := by
  simp [sumOf]

theorem sumOf_upsert {κ σ : Type} [DecidableEq κ] (meas : σ → ℚ) (k : κ)
    (f : σ → σ) (d : σ) (m : List (κ × σ)) (c : ℚ)
    (hf : ∀ s, meas (f s) = meas s + c) (hd : meas d = 0) :
    sumOf meas (upsert k f d m) = sumOf meas m + c := by
  induction m with
  | nil => simp [upsert_nil, hf, hd]
  | cons p t ih =>
    obtain ⟨k₀, v₀⟩ := p
    rw [upsert_cons]
    by_cases h : k₀ = k
    · rw [if_pos h]
      simp only [sumOf_cons, hf]
      ring
    · rw [if_neg h]
      simp only [sumOf_cons, ih]
      ring

theorem sumOf_foldl_upsert {α κ σ : Type} [DecidableEq κ] (meas : σ → ℚ)
    (keyfn : α → κ) (updfn : α → σ → σ) (d : σ) (contrib : α → ℚ)
    (ws : List α) (m0 : List (κ × σ))
    (hupd : ∀ r s, meas (updfn r s) = meas s + contrib r) (hd : meas d = 0) :
    sumOf meas (ws.foldl (fun m r => upsert (keyfn r) (updfn r) d m) m0) =
      sumOf meas m0 + (ws.map contrib).sum := by
  induction ws generalizing m0 with
  | nil => simp
  | cons r t ih =>
    simp only [List.foldl_cons, List.map_cons, List.sum_cons]
    rw [ih, sumOf_upsert meas _ _ _ _ (contrib r) (hupd r) hd]
    ring

theorem sumOf_accumBy {α κ σ : Type} [DecidableEq κ] (meas : σ → ℚ)
    (keyfn : α → κ) (updfn : α → σ → σ) (d : σ) (contrib : α → ℚ) (ws : List α)
    (hupd : ∀ r s, meas (updfn r s) = meas s + contrib r) (hd : meas d = 0) :
    sumOf meas (accumBy keyfn updfn d ws) = (ws.map contrib).sum := by
  rw [accumBy, sumOf_foldl_upsert meas keyfn updfn d contrib ws [] hupd hd]
  simp

/-! ## Evaluating the per-bucket folds -/

theorem foldl_hourUpd (ms : List Row) (a : HourAgg) :
    ms.foldl (fun s r => hourUpd r s) a =
      ⟨a.views + (ms.map Row.views).sum, a.posts + ms.length⟩ := by
  induction ms generalizing a with
  | nil => simp
  | cons r t ih =>
    rw [List.foldl_cons, ih]
    simp only [hourUpd, List.map_cons, List.sum_cons, List.length_cons,
      HourAgg.mk.injEq]
    constructor <;> push_cast <;> ring

theorem foldl_typeUpd (ms : List Row) (a : TypeAgg) :
    ms.foldl (fun s r => typeUpd r s) a =
      ⟨a.views + (ms.map Row.views).sum, a.posts + ms.length,
        a.likes + (ms.map Row.likes).sum, a.comments + (ms.map Row.comments).sum,
        a.shares + (ms.map Row.shares).sum⟩ := by
  induction ms generalizing a with
  | nil => simp
  | cons r t ih =>
    rw [List.foldl_cons, ih]
    simp only [typeUpd, List.map_cons, List.sum_cons, List.length_cons,
      TypeAgg.mk.injEq]
    refine ⟨by push_cast; ring, by push_cast; ring, by push_cast; ring,
      by push_cast; ring, by push_cast; ring⟩

theorem foldl_tagUpd (ms : List (ℚ × String)) (a : TagAgg) :
    ms.foldl (fun s p => tagUpd p s) a =
      ⟨a.views + (ms.map Prod.fst).sum, a.uses + ms.length⟩ := by
  induction ms generalizing a with
  | nil => simp
  | cons r t ih =>
    rw [List.foldl_cons, ih]
    simp only [tagUpd, List.map_cons, List.sum_cons, List.length_cons,
      TagAgg.mk.injEq]
    constructor <;> push_cast <;> ring

theorem alookup_byHour {ws : List Row} {h : ℚ} {agg : HourAgg}
    (hl : alookup h (byHour ws) = some agg) :
    agg.views = hourViews ws h ∧ agg.posts = hourPosts ws h := by
  cases hf : ws.filter fun r => hourKey r = h with
  | nil =>
    rw [byHour, alookup_accumBy_of_filter_nil _ _ _ _ _ hf] at hl
    cases hl
  | cons r ms =>
    rw [byHour, alookup_accumBy_of_filter_cons _ _ _ _ _ r ms hf] at hl
    have he := hl.symm
    rw [Option.some.injEq] at he
    rw [he, foldl_hourUpd, hourViews, hourPosts, hf]
    simp only [hourUpd, List.map_cons, List.sum_cons, List.length_cons]
    constructor <;> push_cast <;> ring

theorem alookup_byType {ws : List Row} {t : String} {agg : TypeAgg}
    (hl : alookup t (byType ws) = some agg) :
    agg.views = typeViews ws t ∧ agg.posts = typePosts ws t ∧
      agg.likes = typeLikes ws t ∧ agg.comments = typeComments ws t ∧
      agg.shares = typeShares ws t := by
  cases hf : ws.filter fun r => effType r = t with
  | nil =>
    rw [byType, alookup_accumBy_of_filter_nil _ _ _ _ _ hf] at hl
    cases hl
  | cons r ms =>
    rw [byType, alookup_accumBy_of_filter_cons _ _ _ _ _ r ms hf] at hl
    have he := hl.symm
    rw [Option.some.injEq] at he
    rw [he, foldl_typeUpd, typeViews, typePosts, typeLikes, typeComments,
      typeShares, hf]
    simp only [typeUpd, List.map_cons, List.sum_cons, List.length_cons]
    refine ⟨by push_cast; ring, by push_cast; ring, by push_cast; ring,
      by push_cast; ring, by push_cast; ring⟩

theorem mem_keys_byHour (ws : List Row) (h : ℚ) :
    h ∈ keysOf (byHour ws) ↔ h ∈ ws.map hourKey := by
  rw [byHour, mem_keys_accumBy]

theorem mem_keys_byType (ws : List Row) (t : String) :
    t ∈ keysOf (byType ws) ↔ t ∈ ws.map effType := by
  rw [byType, mem_keys_accumBy]

theorem nodup_keys_byHour (ws : List Row) : (keysOf (byHour ws)).Nodup :=
  nodup_keys_accumBy _ _ _ _

theorem nodup_keys_byType (ws : List Row) : (keysOf (byType ws)).Nodup :=
  nodup_keys_accumBy _ _ _ _

/-! ## Flattening the hashtag aggregation -/

theorem tagStep_eq (v : ℚ) (m : List (String × TagAgg)) (h : String) :
    tagStep v m h = if normalizeTag h = "" then m
      else upsert (normalizeTag h) (fun a => ⟨a.views + v, a.uses + 1⟩) ⟨0, 0⟩ m := rfl

theorem foldl_rowTagStep (ws : List Row) (m0 : List (String × TagAgg)) :
    ws.foldl rowTagStep m0 = (tagPairs ws).foldl (fun m p => tagStep p.1 m p.2) m0 := by
  induction ws generalizing m0 with
  | nil => rfl
  | cons r t ih =>
    simp only [List.foldl_cons, tagPairs, List.flatMap_cons, List.foldl_append]
    rw [List.foldl_map]
    rw [tagPairs] at ih
    exact ih _

theorem byTag_eq_accum (ws : List Row) :
    byTag ws = accumBy (fun p : ℚ × String => normalizeTag p.2) tagUpd ⟨0, 0⟩
      (validPairs ws) := by
  rw [byTag, foldl_rowTagStep, accumBy, validPairs]
  exact foldl_skip_cond (fun p : ℚ × String => normalizeTag p.2 = "")
    (fun m p => upsert (normalizeTag p.2) (tagUpd p) ⟨0, 0⟩ m) [] (tagPairs ws)

theorem nodup_keys_byTag (ws : List Row) : (keysOf (byTag ws)).Nodup := by
  rw [byTag_eq_accum]
  exact nodup_keys_accumBy _ _ _ _

theorem mem_keys_byTag (ws : List Row) (t : String) :
    t ∈ keysOf (byTag ws) ↔ t ∈ (validPairs ws).map fun p => normalizeTag p.2 := by
  rw [byTag_eq_accum, mem_keys_accumBy]

theorem alookup_byTag {ws : List Row} {t : String} {agg : TagAgg}
    (ht : ¬t = "") (hl : alookup t (byTag ws) = some agg) :
    agg.views = tagViews ws t ∧ agg.uses = tagUses ws t := by
  rw [byTag_eq_accum] at hl
  have hfil : ((validPairs ws).filter fun p => normalizeTag p.2 = t) =
      (tagPairs ws).filter fun p => normalizeTag p.2 = t := by
    rw [validPairs, List.filter_filter]
    refine List.filter_congr fun p _ => ?_
    by_cases hp : normalizeTag p.2 = t
    · simp [hp, ht]
    · simp [hp]
  cases hf : (validPairs ws).filter fun p => normalizeTag p.2 = t with
  | nil =>
    rw [alookup_accumBy_of_filter_nil _ _ _ _ _ hf] at hl
    cases hl
  | cons r ms =>
    rw [alookup_accumBy_of_filter_cons _ _ _ _ _ r ms hf] at hl
    have he := hl.symm
    rw [Option.some.injEq] at he
    rw [he, foldl_tagUpd, tagViews, tagUses, ← hfil, hf]
    simp only [tagUpd, List.map_cons, List.sum_cons, List.length_cons]
    constructor <;> push_cast <;> ring

/-! ## Sorting lemmas -/

theorem sortByDesc_perm {α : Type} (key : α → ℚ) (l : List α) :
    List.Perm (sortByDesc key l) l :=
  List.perm_insertionSort _ l

theorem sortByDesc_pairwise {α : Type} (key : α → ℚ) (l : List α) :
    (sortByDesc key l).Pairwise fun a b => key b ≤ key a := by
  haveI : IsTotal α fun a b => key b ≤ key a := ⟨fun a b => le_total (key b) (key a)⟩
  haveI : IsTrans α fun a b => key b ≤ key a :=
    ⟨fun _ _ _ hab hbc => le_trans hbc hab⟩
  exact List.sorted_insertionSort _ l

theorem sortByDesc_stable {α : Type} (key : α → ℚ) {l : List α} {a b : α}
    (hab : key b ≤ key a) (h : List.Sublist [a, b] l) :
    List.Sublist [a, b] (sortByDesc key l) :=
  List.pair_sublist_insertionSort hab h

/-! ## Character-level lemmas for hashtag normalization -/

theorem char_toNat_ofNat_valid {n : ℕ} (h : n.isValidChar) :
    (Char.ofNat n).toNat = n := by
  rw [Char.ofNat, dif_pos h]
  rfl

theorem char_eq_of_toNat_eq {a b : Char} (h : a.toNat = b.toNat) : a = b := by
  have ha := Char.ofNat_toNat a
  rw [h, Char.ofNat_toNat] at ha
  exact ha.symm

theorem toNat_toLower (c : Char) :
    (Char.toLower c).toNat =
      if 65 ≤ c.toNat ∧ c.toNat ≤ 90 then c.toNat + 32 else c.toNat := by
  by_cases h : 65 ≤ c.toNat ∧ c.toNat ≤ 90
  · rw [if_pos h]
    unfold Char.toLower
    rw [if_pos ⟨h.1, h.2⟩]
    exact char_toNat_ofNat_valid (Or.inl (by omega))
  · rw [if_neg h]
    unfold Char.toLower
    rw [if_neg fun hc => h ⟨hc.1, hc.2⟩]

theorem toLower_of_not_upper {c : Char} (h : ¬(65 ≤ c.toNat ∧ c.toNat ≤ 90)) :
    Char.toLower c = c := by
  unfold Char.toLower
  rw [if_neg fun hc => h ⟨hc.1, hc.2⟩]

theorem toLower_idem (c : Char) :
    Char.toLower (Char.toLower c) = Char.toLower c := by
  refine toLower_of_not_upper ?_
  rw [toNat_toLower]
  by_cases h : 65 ≤ c.toNat ∧ c.toNat ≤ 90
  · rw [if_pos h]; omega
  · rw [if_neg h]; exact h

theorem isStripChar_iff (c : Char) :
    isStripChar c = true ↔
      c.toNat = 35 ∨ c.toNat = 32 ∨ c.toNat = 9 ∨ c.toNat = 13 ∨ c.toNat = 10 := by
  rw [isStripChar, Char.isWhitespace]
  simp only [Bool.or_eq_true, beq_iff_eq, decide_eq_true_eq, or_assoc]
  constructor
  · rintro (rfl | rfl | rfl | rfl | rfl) <;> decide
  · rintro (h | h | h | h | h)
    · rw [show c = '#' from char_eq_of_toNat_eq (by rw [h]; decide)]
      decide
    · rw [show c = ' ' from char_eq_of_toNat_eq (by rw [h]; decide)]
      decide
    · rw [show c = '\t' from char_eq_of_toNat_eq (by rw [h]; decide)]
      decide
    · rw [show c = '\r' from char_eq_of_toNat_eq (by rw [h]; decide)]
      decide
    · rw [show c = '\n' from char_eq_of_toNat_eq (by rw [h]; decide)]
      decide

theorem isStripChar_toLower (c : Char) :
    isStripChar (Char.toLower c) = isStripChar c := by
  by_cases h : 65 ≤ c.toNat ∧ c.toNat ≤ 90
  · have h1 : (Char.toLower c).toNat = c.toNat + 32 := by
      rw [toNat_toLower, if_pos h]
    have f1 : isStripChar c = false := by
      rw [Bool.eq_false_iff]
      intro hs
      rw [isStripChar_iff] at hs
      omega
    have f2 : isStripChar (Char.toLower c) = false := by
      rw [Bool.eq_false_iff]
      intro hs
      rw [isStripChar_iff, h1] at hs
      omega
    rw [f1, f2]
  · rw [toLower_of_not_upper h]

/-! ## Hashtag-normalization lemmas -/

theorem filter_strip_map_toLower (l : List Char) :
    (l.map Char.toLower).filter (fun c => !isStripChar c) =
      (l.filter fun c => !isStripChar c).map Char.toLower := by
  rw [List.filter_map]
  congr 1
  refine List.filter_congr fun c _ => ?_
  simp [Function.comp, isStripChar_toLower]

theorem normalizeTag_mk (l : List Char) :
    normalizeTag (String.mk l) =
      String.mk ((l.filter fun c => !isStripChar c).map Char.toLower) := rfl

theorem normalizeTag_idem (s : String) :
    normalizeTag (normalizeTag s) = normalizeTag s := by
  rw [normalizeTag, normalizeTag_mk, filter_strip_map_toLower,
    List.filter_filter]
  congr 1
  rw [show (fun a => !isStripChar a && !isStripChar a) = fun a => !isStripChar a
    from funext fun a => Bool.and_self _, List.map_map]
  exact List.map_congr_left fun c _ => toLower_idem c

theorem normalizeTag_eq_of_map_toLower {s t : String}
    (h : s.data.map Char.toLower = t.data.map Char.toLower) :
    normalizeTag s = normalizeTag t := by
  rw [normalizeTag, normalizeTag, ← filter_strip_map_toLower,
    ← filter_strip_map_toLower, h]

theorem normalizeTag_surround {a s b : String}
    (ha : ∀ c ∈ a.data, isStripChar c = true)
    (hb : ∀ c ∈ b.data, isStripChar c = true) :
    normalizeTag (a ++ s ++ b) = normalizeTag s := by
  rw [normalizeTag, normalizeTag, String.data_append, String.data_append,
    List.filter_append, List.filter_append]
  have hae : (a.data.filter fun c => !isStripChar c) = [] := by
    rw [List.filter_eq_nil_iff]
    intro c hc
    simp [ha c hc]
  have hbe : (b.data.filter fun c => !isStripChar c) = [] := by
    rw [List.filter_eq_nil_iff]
    intro c hc
    simp [hb c hc]
  rw [hae, hbe]
  simp

theorem empty_not_mem_keys_byTag (ws : List Row) :
    ¬"" ∈ keysOf (byTag ws) := by
  rw [mem_keys_byTag]
  rintro hmem
  obtain ⟨p, hp, he⟩ := List.mem_map.1 hmem
  rw [validPairs, List.mem_filter] at hp
  have := hp.2
  rw [he] at this
  simp at this

theorem sum_map_one {α : Type} (l : List α) :
    (l.map fun _ => (1 : ℚ)).sum = l.length := by
  induction l with
  | nil => simp
  | cons a t ih => simp [ih]; ring

theorem sum_map_const {α : Type} (c : ℚ) (l : List α) :
    (l.map fun _ => c).sum = c * l.length := by
  induction l with
  | nil => simp
  | cons a t ih =>
    simp only [List.map_cons, List.sum_cons, ih, List.length_cons]
    push_cast
    ring

theorem sum_flatMap_q {α : Type} (f : α → List ℚ) (l : List α) :
    (l.flatMap f).sum = (l.map fun a => (f a).sum).sum := by
  induction l with
  | nil => rfl
  | cons a t ih => simp [List.flatMap_cons, List.sum_append, ih]

theorem length_flatMap_q {α β : Type} (f : α → List β) (l : List α) :
    ((l.flatMap f).length : ℚ) = (l.map fun a => ((f a).length : ℚ)).sum := by
  induction l with
  | nil => rfl
  | cons a t ih =>
    simp only [List.flatMap_cons, List.length_append, List.map_cons,
      List.sum_cons, ← ih]
    push_cast
    ring

theorem validPairs_eq (ws : List Row) :
    validPairs ws = ws.flatMap fun r => (validTags r).map fun h => (r.views, h) := by
  rw [validPairs, tagPairs, List.filter_flatMap]
  refine congrArg _ (funext fun r => ?_)
  rw [List.filter_map, validTags]
  rfl

theorem mem_typeScores_iff {ws : List Row} {e : ScoreEntry} :
    e ∈ typeScores ws ↔ ∃ p ∈ byType ws, e = scoreOfAgg p.1 p.2 := by
  rw [typeScores, (sortByDesc_perm _ _).mem_iff, List.mem_map]
  constructor
  · rintro ⟨p, hp, he⟩
    exact ⟨p, hp, he.symm⟩
  · rintro ⟨p, hp, he⟩
    exact ⟨p, hp, he.symm⟩

theorem byTag_drop_empty (ws : List Row) :
    byTag (ws.map fun r => { r with hashtags := validTags r }) = byTag ws := by
  rw [byTag_eq_accum, byTag_eq_accum]
  congr 1
  rw [validPairs, validPairs, tagPairs, tagPairs, List.filter_flatMap,
    List.filter_flatMap, List.flatMap_map]
  refine congrArg _ (funext fun r => ?_)
  rw [List.filter_map, List.filter_map]
  congr 1
  show (validTags r).filter _ = _
  rw [validTags, List.filter_filter]
  refine List.filter_congr fun h _ => ?_
  simp [Function.comp]

/-! ## Claim theorems -/

unseal Rat.mul Rat.inv Rat.add Rat.sub in
/-- C7: for all rationals modelling JS numbers, `safeRate n d` equals `n / d`
rounded to 4 decimal digits when `0 < d`, and is exactly `0` otherwise; in
particular `safeRate n 0 = 0` for every `n`, and `safeRate 10 4 = 2.5`. -/
theorem claim_safeRate :
    (∀ n d : ℚ, 0 < d → safeRate n d = roundTo 4 (n / d)) ∧
    (∀ n d : ℚ, ¬0 < d → safeRate n d = 0) ∧
    (∀ n : ℚ, safeRate n 0 = 0) ∧
    safeRate 10 4 = 5 / 2 := by
  refine ⟨fun n d h => if_pos h, fun n d h => if_neg h,
    fun n => if_neg (lt_irrefl 0), by decide⟩

unseal Rat.mul Rat.inv Rat.add Rat.sub in
theorem claim_safeRate_witness :
    0 < (4 : ℚ) ∧ ¬0 < (0 : ℚ) ∧ safeRate 10 4 = roundTo 4 (10 / 4) ∧
      safeRate 7 0 = 0 :=
  ⟨by decide, by decide, claim_safeRate.1 10 4 (by decide),
    claim_safeRate.2.1 7 0 (by decide)⟩

unseal Rat.mul Rat.inv Rat.add Rat.sub in
/-- C6: the `byHour` pass folds one `upsert` per row; every row's hour key is
clamped into [0, 23]; processing a row updates exactly the bucket of its hour
key (adding the row's views and one post) and leaves every other bucket
unchanged; hour `-5` lands in bucket `0`, hour `99` in bucket `23`, and the
non-numeric hour values (absent and `NaN`, both falsy) land in bucket `0`. -/
theorem claim_hour_clamp (ws : List Row) (r : Row) (m : List (ℚ × HourAgg))
    (k : ℚ) (hk : ¬k = hourKey r) :
    byHour ws = ws.foldl (fun m r => upsert (hourKey r) (hourUpd r) ⟨0, 0⟩ m) [] ∧
    (0 ≤ hourKey r ∧ hourKey r ≤ 23) ∧
    alookup (hourKey r) (upsert (hourKey r) (hourUpd r) ⟨0, 0⟩ m) =
      some (hourUpd r ((alookup (hourKey r) m).getD ⟨0, 0⟩)) ∧
    alookup k (upsert (hourKey r) (hourUpd r) ⟨0, 0⟩ m) = alookup k m ∧
    hourKey ⟨some (JNum.num (-5)), "", [], 0, 0, 0, 0⟩ = 0 ∧
    hourKey ⟨some (JNum.num 99), "", [], 0, 0, 0, 0⟩ = 23 ∧
    hourKey ⟨none, "", [], 0, 0, 0, 0⟩ = 0 ∧
    hourKey ⟨some JNum.nan, "", [], 0, 0, 0, 0⟩ = 0 := by
  refine ⟨rfl, ⟨le_max_left _ _, max_le (by norm_num) (min_le_left _ _)⟩,
    ?_, ?_, by decide, by decide, by decide, by decide⟩
  · rw [alookup_upsert, if_pos rfl]
  · rw [alookup_upsert, if_neg fun h => hk h.symm]

unseal Rat.mul Rat.inv Rat.add Rat.sub in
theorem claim_hour_clamp_witness :
    ¬(7 : ℚ) = hourKey ⟨some (JNum.num 5), "t", [], 100, 0, 0, 0⟩ ∧
      (0 ≤ hourKey ⟨some (JNum.num 5), "t", [], 100, 0, 0, 0⟩ ∧
        hourKey ⟨some (JNum.num 5), "t", [], 100, 0, 0, 0⟩ ≤ 23) :=
  ⟨by decide,
    (claim_hour_clamp [] ⟨some (JNum.num 5), "t", [], 100, 0, 0, 0⟩ [] 7
      (by decide)).2.1⟩

/-- C8: over any working set, the post counts of the hour buckets and of the
type buckets each sum to the number of rows, and their view totals each sum
to the total views; each hashtag occurrence that survives normalization adds
the row's views and one use to its bucket, so bucket uses sum to the number
of surviving occurrences and bucket views to the matching view multiples. -/
theorem claim_contributions (ws : List Row) :
    sumOf HourAgg.posts (byHour ws) = ws.length ∧
    sumOf HourAgg.views (byHour ws) = (ws.map Row.views).sum ∧
    sumOf TypeAgg.posts (byType ws) = ws.length ∧
    sumOf TypeAgg.views (byType ws) = (ws.map Row.views).sum ∧
    sumOf TagAgg.uses (byTag ws) =
      (ws.map fun r => ((validTags r).length : ℚ)).sum ∧
    sumOf TagAgg.views (byTag ws) =
      (ws.map fun r => r.views * ((validTags r).length : ℚ)).sum := by
  refine ⟨?_, ?_, ?_, ?_, ?_, ?_⟩
  · rw [byHour, sumOf_accumBy HourAgg.posts hourKey hourUpd ⟨0, 0⟩ (fun _ => 1)
      ws (fun r s => rfl) rfl, sum_map_one]
  · rw [byHour, sumOf_accumBy HourAgg.views hourKey hourUpd ⟨0, 0⟩ Row.views
      ws (fun r s => rfl) rfl]
  · rw [byType, sumOf_accumBy TypeAgg.posts effType typeUpd ⟨0, 0, 0, 0, 0⟩
      (fun _ => 1) ws (fun r s => rfl) rfl, sum_map_one]
  · rw [byType, sumOf_accumBy TypeAgg.views effType typeUpd ⟨0, 0, 0, 0, 0⟩
      Row.views ws (fun r s => rfl) rfl]
  · rw [byTag_eq_accum, sumOf_accumBy TagAgg.uses _ tagUpd ⟨0, 0⟩ (fun _ => 1)
      _ (fun p s => rfl) rfl, sum_map_one, validPairs_eq, length_flatMap_q]
    simp
  · rw [byTag_eq_accum, sumOf_accumBy TagAgg.views _ tagUpd ⟨0, 0⟩ Prod.fst
      _ (fun p s => rfl) rfl, validPairs_eq, List.map_flatMap, sum_flatMap_q]
    refine congrArg _ (List.map_congr_left fun r _ => ?_)
    rw [List.map_map,
      show (Prod.fst ∘ fun h : String => (r.views, h)) = fun _ => r.views from rfl,
      sum_map_const]

/-- C9: hashtag normalization is idempotent; tags agreeing up to ASCII case
normalize to the same key; surrounding `#`/whitespace characters do not
change the key (so such variants merge into one bucket); and tags that
normalize to the empty string are skipped — `""` is never a bucket key, and
removing those tags from every row leaves `hashtagStats` unchanged. -/
theorem claim_tag_normalization (ws : List Row) (s t a b : String)
    (hcase : s.data.map Char.toLower = t.data.map Char.toLower)
    (ha : ∀ c ∈ a.data, isStripChar c = true)
    (hb : ∀ c ∈ b.data, isStripChar c = true) :
    normalizeTag (normalizeTag s) = normalizeTag s ∧
    normalizeTag s = normalizeTag t ∧
    normalizeTag (a ++ s ++ b) = normalizeTag s ∧
    ¬"" ∈ keysOf (byTag ws) ∧
    byTag (ws.map fun r => { r with hashtags := validTags r }) = byTag ws :=
  ⟨normalizeTag_idem s, normalizeTag_eq_of_map_toLower hcase,
    normalizeTag_surround ha hb, empty_not_mem_keys_byTag ws,
    byTag_drop_empty ws⟩

unseal Rat.mul Rat.inv Rat.add Rat.sub in
theorem claim_tag_normalization_witness :
    ("AiTag".data.map Char.toLower = "aitAG".data.map Char.toLower) ∧
    (∀ c ∈ "#".data, isStripChar c = true) ∧
    (∀ c ∈ " ".data, isStripChar c = true) ∧
    normalizeTag (normalizeTag "AiTag") = normalizeTag "AiTag" ∧
    normalizeTag "AiTag" = normalizeTag "aitAG" ∧
    normalizeTag ("#" ++ "AiTag" ++ " ") = normalizeTag "AiTag" :=
  ⟨by decide, by decide, by decide,
    (claim_tag_normalization [] "AiTag" "aitAG" "#" " " (by decide) (by decide)
      (by decide)).1,
    (claim_tag_normalization [] "AiTag" "aitAG" "#" " " (by decide) (by decide)
      (by decide)).2.1,
    (claim_tag_normalization [] "AiTag" "aitAG" "#" " " (by decide) (by decide)
      (by decide)).2.2.1⟩

/-- C2: `bestHours` is the first 3 of the stable descending sort of the
per-hour rate entries; that sort is descending in the rate and keeps tied
entries in map (insertion) order; each entry's rate is
`safeRate(totalViews, postCount)` of its bucket; the length is
`min 3 (number of buckets)`; and with at most 3 distinct buckets every
present hour appears. -/
theorem claim_bestHours (ws : List Row) (p a b : ℚ × ℚ)
    (hp : p ∈ hourRateEntries ws)
    (hab : List.Sublist [a, b] (hourRateEntries ws)) (heq : a.2 = b.2) :
    bestHours ws =
      ((sortByDesc Prod.snd (hourRateEntries ws)).take 3).map Prod.fst ∧
    (sortByDesc Prod.snd (hourRateEntries ws)).Pairwise (fun x y => y.2 ≤ x.2) ∧
    List.Sublist [a, b] (sortByDesc Prod.snd (hourRateEntries ws)) ∧
    p.2 = safeRate (hourViews ws p.1) (hourPosts ws p.1) ∧
    (bestHours ws).length = min 3 (byHour ws).length ∧
    ((byHour ws).length ≤ 3 →
      ∀ h : ℚ, h ∈ bestHours ws ↔ h ∈ ws.map hourKey) := by
  refine ⟨rfl, sortByDesc_pairwise _ _,
    sortByDesc_stable _ (le_of_eq heq.symm) hab, ?_, ?_, ?_⟩
  · obtain ⟨⟨qh, qa⟩, hq, he⟩ := List.mem_map.1 hp
    obtain ⟨hv, hpo⟩ := alookup_byHour
      (alookup_eq_of_mem (nodup_keys_byHour ws) hq)
    rw [← he, ← hv, ← hpo]
  · rw [bestHours, topN, List.length_map, List.length_take, sortByDesc,
      List.length_insertionSort, hourRateEntries, List.length_map]
  · intro hle h
    have hlen : (sortByDesc Prod.snd (hourRateEntries ws)).length ≤ 3 := by
      rw [sortByDesc, List.length_insertionSort, hourRateEntries,
        List.length_map]
      exact hle
    have hk : (hourRateEntries ws).map Prod.fst = keysOf (byHour ws) := by
      rw [hourRateEntries, List.map_map]
      rfl
    rw [bestHours, topN, List.take_of_length_le hlen, ← mem_keys_byHour, ← hk]
    exact ((sortByDesc_perm Prod.snd (hourRateEntries ws)).map Prod.fst).mem_iff

unseal Rat.mul Rat.inv Rat.add Rat.sub in
theorem claim_bestHours_witness :
    ((5 : ℚ), (100 : ℚ)) ∈ hourRateEntries wsB ∧
    List.Sublist [((5 : ℚ), (100 : ℚ)), ((7 : ℚ), (100 : ℚ))]
      (hourRateEntries wsB) ∧
    ((5 : ℚ), (100 : ℚ)).2 = ((7 : ℚ), (100 : ℚ)).2 ∧
    List.Sublist [((5 : ℚ), (100 : ℚ)), ((7 : ℚ), (100 : ℚ))]
      (sortByDesc Prod.snd (hourRateEntries wsB)) ∧
    (bestHours wsB).length = min 3 (byHour wsB).length :=
  ⟨by decide, by decide, by decide,
    (claim_bestHours wsB (5, 100) (5, 100) (7, 100) (by decide) (by decide)
      (by decide)).2.2.1,
    (claim_bestHours wsB (5, 100) (5, 100) (7, 100) (by decide) (by decide)
      (by decide)).2.2.2.2.1⟩

/-- C3: `topHashtags` is the first 15 of the stable descending sort of the
per-tag rate entries (each rate being `safeRate(totalViews, uses)` of its
bucket) while `hashtagLeaders` is the first 20 of the stable descending sort
of the same `hashtagStats` entries by raw views — two different orderings
over the same aggregates, with the respective length bounds. -/
theorem claim_hashtags (ws : List Row) (p : String × ℚ) (q : String × TagAgg)
    (hp : p ∈ tagRateEntries ws) (hq : q ∈ hashtagLeaders ws) :
    topHashtags ws =
      ((sortByDesc Prod.snd (tagRateEntries ws)).take 15).map Prod.fst ∧
    (sortByDesc Prod.snd (tagRateEntries ws)).Pairwise (fun x y => y.2 ≤ x.2) ∧
    (topHashtags ws).length ≤ 15 ∧
    p.2 = safeRate (tagViews ws p.1) (tagUses ws p.1) ∧
    hashtagLeaders ws = (sortByDesc (fun e => e.2.views) (byTag ws)).take 20 ∧
    (hashtagLeaders ws).Pairwise (fun x y => y.2.views ≤ x.2.views) ∧
    (hashtagLeaders ws).length ≤ 20 ∧
    q ∈ byTag ws ∧ q.2.views = tagViews ws q.1 ∧ q.2.uses = tagUses ws q.1 := by
  obtain ⟨qk, qv⟩ := q
  have hq' : (qk, qv) ∈ (sortByDesc (fun e => e.2.views) (byTag ws)).take 20 := hq
  have hqm : (qk, qv) ∈ byTag ws :=
    (sortByDesc_perm (fun e => e.2.views) (byTag ws)).mem_iff.mp
      ((List.take_sublist 20 _).subset hq')
  have hqk : ¬qk = "" := by
    intro hk
    exact empty_not_mem_keys_byTag ws
      (hk ▸ List.mem_map_of_mem Prod.fst hqm)
  obtain ⟨hqv, hqu⟩ := alookup_byTag hqk
    (alookup_eq_of_mem (nodup_keys_byTag ws) hqm)
  refine ⟨rfl, sortByDesc_pairwise _ _, ?_, ?_, rfl,
    (sortByDesc_pairwise _ _).sublist (List.take_sublist 20 _), ?_,
    hqm, hqv, hqu⟩
  · rw [topHashtags, topN, List.length_map]
    exact List.length_take_le _ _
  · obtain ⟨⟨ek, ev⟩, he, hep⟩ := List.mem_map.1 hp
    have hek : ¬ek = "" := by
      intro hk
      exact empty_not_mem_keys_byTag ws
        (hk ▸ List.mem_map_of_mem Prod.fst he)
    obtain ⟨hv, hu⟩ := alookup_byTag hek
      (alookup_eq_of_mem (nodup_keys_byTag ws) he)
    rw [← hep, ← hv, ← hu]
  · rw [hashtagLeaders]
    exact List.length_take_le _ _

unseal Rat.mul Rat.inv Rat.add Rat.sub in
theorem claim_hashtags_witness :
    ("ai", (12000 : ℚ)) ∈ tagRateEntries wsA ∧
    ("editing", ({ views := 6000, uses := 1 } : TagAgg)) ∈ hashtagLeaders wsA ∧
    ("ai", (12000 : ℚ)).2 = safeRate (tagViews wsA "ai") (tagUses wsA "ai") ∧
    ("editing", ({ views := 6000, uses := 1 } : TagAgg)) ∈ byTag wsA :=
  ⟨by decide, by decide,
    (claim_hashtags wsA ("ai", 12000) ("editing", ⟨6000, 1⟩) (by decide)
      (by decide)).2.2.2.1,
    (claim_hashtags wsA ("ai", 12000) ("editing", ⟨6000, 1⟩) (by decide)
      (by decide)).2.2.2.2.2.2.2.1⟩

/-- C1: every entry of `typeScores` carries `viewPerPost = safeRate(views,
posts)`, `engagementRate = safeRate(likes + 2·comments + 3·shares, views)`
with the denominator falling back to the post count when the type's views
are `0`, and `score = 0.7·viewPerPost + 0.3·engagementRate` rounded at 6
digits, all over the accumulated totals of its content type; the list is
sorted descending by score and covers each distinct content type exactly
once, with `"unknown"` substituted for an empty `contentType`. -/
theorem claim_typeScores (ws : List Row) (e : ScoreEntry)
    (he : e ∈ typeScores ws) :
    (e.viewPerPost = safeRate (typeViews ws e.type) (typePosts ws e.type) ∧
      e.engagementRate = safeRate
        (typeLikes ws e.type + typeComments ws e.type * 2 +
          typeShares ws e.type * 3)
        (if typeViews ws e.type = 0 then typePosts ws e.type
          else typeViews ws e.type) ∧
      e.score = roundTo 6
        (e.viewPerPost * (7 / 10) + e.engagementRate * (3 / 10))) ∧
    (typeScores ws).Pairwise (fun x y => y.score ≤ x.score) ∧
    ((typeScores ws).map ScoreEntry.type).Nodup ∧
    (∀ u : String, (∃ x ∈ typeScores ws, x.type = u) ↔
      u ∈ ws.map fun r =>
        if r.contentType = "" then "unknown" else r.contentType) := by
  obtain ⟨⟨tk, tv⟩, ht, hee⟩ := mem_typeScores_iff.mp he
  obtain ⟨h1, h2, h3, h4, h5⟩ :=
    alookup_byType (alookup_eq_of_mem (nodup_keys_byType ws) ht)
  have hperm : ((typeScores ws).map ScoreEntry.type).Perm (keysOf (byType ws)) := by
    have h0 := (sortByDesc_perm ScoreEntry.score
      ((byType ws).map fun p => scoreOfAgg p.1 p.2)).map ScoreEntry.type
    rw [List.map_map] at h0
    exact h0
  subst hee
  refine ⟨⟨?_, ?_, rfl⟩, sortByDesc_pairwise _ _,
    hperm.nodup_iff.mpr (nodup_keys_byType ws), fun u => ?_⟩
  · show safeRate tv.views tv.posts =
      safeRate (typeViews ws tk) (typePosts ws tk)
    rw [← h1, ← h2]
  · show safeRate (tv.likes + tv.comments * 2 + tv.shares * 3)
        (if tv.views = 0 then tv.posts else tv.views) =
      safeRate (typeLikes ws tk + typeComments ws tk * 2 + typeShares ws tk * 3)
        (if typeViews ws tk = 0 then typePosts ws tk else typeViews ws tk)
    rw [← h1, ← h2, ← h3, ← h4, ← h5]
  · exact List.mem_map.symm.trans (hperm.mem_iff.trans (mem_keys_byType ws u))

unseal Rat.mul Rat.inv Rat.add Rat.sub in
theorem claim_typeScores_witness :
    scoreOfAgg "short" ⟨18000, 2, 1730, 152, 100⟩ ∈ typeScores wsA ∧
    (scoreOfAgg "short" ⟨18000, 2, 1730, 152, 100⟩).viewPerPost =
      safeRate
        (typeViews wsA (scoreOfAgg "short" ⟨18000, 2, 1730, 152, 100⟩).type)
        (typePosts wsA (scoreOfAgg "short" ⟨18000, 2, 1730, 152, 100⟩).type) :=
  ⟨by decide,
    (claim_typeScores wsA (scoreOfAgg "short" ⟨18000, 2, 1730, 152, 100⟩)
      (by decide)).1.1⟩

unseal Rat.mul Rat.inv Rat.add Rat.sub in
/-- C4: `actions` is the fixed-order concatenation of the conditional
top-type line, best-hours line, hashtag line (first 5 of the rate-ranked
top 15), de-prioritize line (last entry of the score-descending ranking),
and the unconditional final cadence line, with
`plannedCadence = clamp(round(rowCount·0.6), 5, 14)` — clamped into
`[5, 14]` and giving 5 for 1 row, 6 for 10 rows, 14 for 100 rows. -/
theorem claim_actions (ws : List Row) :
    actions ws =
      (match (typeScores ws).head? with
        | some e => ["Double down on " ++ e.type ++ " content (top format)."]
        | none => []) ++
      (if bestHours ws = [] then []
        else ["Post at " ++ String.intercalate ", "
          ((bestHours ws).map fun h => jsNumString h ++ ":00") ++
          " local time."]) ++
      (if topHashtags ws = [] then []
        else ["Use 1-3 of: " ++ String.intercalate " "
          (((topHashtags ws).take 5).map fun h => "#" ++ h) ++ "."]) ++
      (match (typeScores ws).getLast? with
        | some e => ["De-prioritize " ++ e.type ++ " until performance improves."]
        | none => []) ++
      [cadenceLine ws.length] ∧
    (actions ws).getLast? = some (cadenceLine ws.length) ∧
    (∀ n : ℕ, 5 ≤ plannedCadence n ∧ plannedCadence n ≤ 14) ∧
    plannedCadence 1 = 5 ∧ plannedCadence 10 = 6 ∧ plannedCadence 100 = 14 := by
  refine ⟨rfl, ?_, fun n => ⟨le_min (by norm_num) (le_max_left _ _),
    min_le_left _ _⟩, by decide, by decide, by decide⟩
  simp [actions]

/-- C10: when every working-set row has the same effective content type `t`,
the actions list contains both the top-format line and the de-prioritize
line naming `t`, since `t` is simultaneously the first and the last entry of
the score-descending ranking. -/
theorem claim_single_type (ws : List Row) (t : String) (hne : ¬ws = [])
    (hall : ∀ r ∈ ws, effType r = t) :
    ("Double down on " ++ t ++ " content (top format).") ∈ actions ws ∧
    ("De-prioritize " ++ t ++ " until performance improves.") ∈ actions ws := by
  obtain ⟨r0, hr0⟩ := List.exists_mem_of_ne_nil ws hne
  have hmem : t ∈ keysOf (byType ws) := by
    rw [mem_keys_byType]
    exact hall r0 hr0 ▸ List.mem_map_of_mem effType hr0
  have hkeys : ∀ k ∈ keysOf (byType ws), k = t := by
    intro k hk
    rw [mem_keys_byType] at hk
    obtain ⟨r, hr, hkr⟩ := List.mem_map.1 hk
    rw [← hkr]
    exact hall r hr
  obtain ⟨agg, hbt⟩ : ∃ agg, byType ws = [(t, agg)] := by
    cases hby : byType ws with
    | nil =>
      rw [hby] at hmem
      simp at hmem
    | cons p rest =>
      cases hrest : rest with
      | nil =>
        refine ⟨p.2, ?_⟩
        have hp1 : p.1 = t := hkeys p.1 (by rw [hby]; simp)
        rw [← hp1]
      | cons p2 rest2 =>
        exfalso
        have hnd := nodup_keys_byType ws
        rw [hby, hrest] at hnd
        have h1 : p.1 = t := hkeys p.1 (by rw [hby]; simp)
        have h2 : p2.1 = t := hkeys p2.1 (by rw [hby, hrest]; simp)
        simp only [keysOf_cons, List.nodup_cons] at hnd
        exact hnd.1 (by rw [h1, h2]; exact List.mem_cons_self _ _)
  have hts : typeScores ws = [scoreOfAgg t agg] := by
    rw [typeScores, hbt]
    rfl
  have hhead : (typeScores ws).head? = some (scoreOfAgg t agg) := by
    rw [hts]
    rfl
  have hlast : (typeScores ws).getLast? = some (scoreOfAgg t agg) := by
    rw [hts]
    rfl
  constructor
  · unfold actions
    rw [hhead]
    exact List.mem_append_left _ (List.mem_append_left _
      (List.mem_append_left _ (List.mem_append_left _
        (List.mem_cons_self _ _))))
  · unfold actions
    rw [hlast]
    exact List.mem_append_left _ (List.mem_append_right _
      (List.mem_cons_self _ _))

unseal Rat.mul Rat.inv Rat.add Rat.sub in
theorem claim_single_type_witness :
    ¬wsA = [] ∧ (∀ r ∈ wsA, effType r = "short") ∧
    ("Double down on " ++ "short" ++ " content (top format).") ∈ actions wsA ∧
    ("De-prioritize " ++ "short" ++ " until performance improves.") ∈
      actions wsA :=
  ⟨by decide, by decide,
    (claim_single_type wsA "short" (by decide) (by decide)).1,
    (claim_single_type wsA "short" (by decide) (by decide)).2⟩

/-- C5: the route answers the bad-request error `{ error: "No data provided" }`
(status 400) exactly when the working set is empty — rows missing/empty or no
row with a numeric `views`; rows without a numeric `views`, like null rows,
are silently dropped from the working set; a failed body parse yields the
caught error with its message (status 500); and no input produces both a
success payload and an error. -/
theorem claim_error_handling (b : AnalyzeBody) (e : String)
    (pre post : List (Option RawRow)) (bad : RawRow) (hbad : bad.views = none) :
    (POST (.ok b) = .err "No data provided" 400 ↔
      workingSet (b.rows.getD []) = []) ∧
    (¬workingSet (b.rows.getD []) = [] →
      POST (.ok b) = .ok (analyzeRows (workingSet (b.rows.getD [])))) ∧
    POST (.error e) = .err e 500 ∧
    workingSet (pre ++ some bad :: post) = workingSet (pre ++ post) ∧
    workingSet (pre ++ none :: post) = workingSet (pre ++ post) ∧
    (∀ out msg st, POST (.ok b) = .ok out → ¬POST (.ok b) = .err msg st) := by
  refine ⟨?_, ?_, rfl, ?_, ?_, ?_⟩
  · by_cases hws : workingSet (b.rows.getD []) = [] <;> simp [POST, hws]
  · intro hws
    simp [POST, hws]
  · simp [workingSet, hbad]
  · simp [workingSet]
  · intro out msg st h1 h2
    rw [h1] at h2
    exact ApiResult.noConfusion h2

unseal Rat.mul Rat.inv Rat.add Rat.sub in
theorem claim_error_handling_witness :
    ({ } : RawRow).views = none ∧
    (POST (.ok ⟨none⟩) = .err "No data provided" 400 ↔
      workingSet ((⟨none⟩ : AnalyzeBody).rows.getD []) = []) ∧
    POST (.error "boom") = .err "boom" 500 :=
  ⟨rfl, (claim_error_handling ⟨none⟩ "boom" [] [] { } rfl).1,
    (claim_error_handling ⟨none⟩ "boom" [] [] { } rfl).2.2.1⟩

end Viralytics
